import Mathlib

/-!
Verification development for the data-catalog-search-api repository
(`src/main.py`).  The definitions below are a shallow embedding of the
ranking engine (`search_and_format_results`, `search_metadata`) and the
index lifecycle manager (`refresh_faiss_index_if_needed`,
`derive_faiss_index_path`).

Modelling conventions:
* Python floats (cosine distances, file modification times) are modelled
  as exact rationals `ℚ`.
* Python dicts are modelled as insertion-ordered association lists; dict
  assignment updates an existing key in place and appends a new key at
  the end, exactly as CPython does.
* The FAISS vector store is opaque: an index is a function
  `String → Nat → List (String × ℚ)` mapping a query and `k` to the list
  of `(table_name, cosine_distance)` pairs it returns.
* Fallible operations (file stat, JSON load, FAISS load) are fields of a
  read-only `World`; an uncaught Python exception is `Except.error`.
* Python truthiness matters in `refresh_faiss_index_if_needed`
  (`if last_mtime and ...`): a float is truthy iff it is nonzero, which
  the model captures with `truthyQ`.
* Paths are POSIX path strings, assumed canonical (the model treats
  `Path.resolve()` as the identity).
-/

/-- One column record of the metadata JSON.  `main.py` reads
`col['name']` and `col['description']` unconditionally and uses
`col.get('dataTypeDisplay', 'N/A')` / `col.get('isPrimaryKey', False)`,
so the last two fields are optional. -/
structure CatalogColumn where
  name : String
  description : String
  dataTypeDisplay : Option String
  isPrimaryKey : Option Bool
deriving DecidableEq

/-- One table record of the metadata JSON.  `main.py` reads
`table['name']` and `table['description']` unconditionally and uses
`table.get('columns', [])`. -/
structure CatalogTable where
  name : String
  description : String
  columns : Option (List CatalogColumn)
deriving DecidableEq

/-- Mirror of the pydantic `ColumnDescription` output model. -/
structure ColumnDescription where
  column_name : String
  description : String
  data_type : String
  is_primary_key : Bool
deriving DecidableEq

/-- Mirror of the pydantic `TableSearchResult` output model. -/
structure TableSearchResult where
  similarity_score : ℚ
  table_name : String
  table_description : String
  openmetadata_url : String
  column_descriptions : List ColumnDescription
deriving DecidableEq

/-- Mirror of the pydantic `SearchResponse` output model.  `results` is
`Optional`, so `none` serialises to JSON `null` while `some []` would
serialise to `[]`. -/
structure SearchResponse where
  status : String
  original_query : String
  llm_response : Option String
  results : Option (List TableSearchResult)
deriving DecidableEq

/-- Round the fraction `n / d` (with `d > 0`) to the nearest integer
with ties to even, via integer arithmetic: `f` is the floor and `r2` is
twice the fractional-part numerator, so `r2 < d` means the fractional
part is below one half. -/
def roundHalfEven (n d : ℤ) : ℤ :=
  let f := Int.fdiv n d
  let r2 := 2 * (n - f * d)
  if r2 < d then f
  else if d < r2 then f + 1
  else if f % 2 = 0 then f else f + 1

/-- Python `round(x, 4)` from `search_and_format_results` on the
exact-rational model of floats: `x * 10000` is exactly
`(x.num * 10000) / x.den`, which is rounded to the nearest integer with
ties to even (banker's rounding) and divided back by `10000`. -/
def roundTo4 (x : ℚ) : ℚ := mkRat (roundHalfEven (x.num * 10000) x.den) 10000

/-- The `threshold = 0.3` of `search_and_format_results` (line 120),
written in normal form so that it evaluates;
`threshold_eq` below restates it as `3/10`. -/
def threshold : ℚ := ⟨3, 10, by decide, by decide⟩

theorem threshold_eq : threshold = 3/10 := by
  norm_num [threshold, Rat.mk'_eq_divInt, Rat.divInt_eq_div]

/-- First-match association-list lookup; Python dict lookup on the
unique-key lists this development builds. -/
def lookupA (m : List (String × ℚ)) (k : String) : Option ℚ :=
  (m.find? (fun p => p.1 = k)).map (fun p => p.2)

/-- In-place value update of an association list, the behaviour of
Python dict assignment to an existing key (position preserved). -/
def setA (m : List (String × ℚ)) (k : String) (v : ℚ) : List (String × ℚ) :=
  m.map (fun p => if p.1 = k then (k, v) else p)

/-- The dict update performed by the threshold loop of
`search_and_format_results`: `found_tables[t] = s` guarded by
`t not in found_tables or s < found_tables[t]`. -/
def update_min (m : List (String × ℚ)) (k : String) (v : ℚ) : List (String × ℚ) :=
  match lookupA m k with
  | none => m ++ [(k, v)]
  | some w => if v < w then setA m k v else m

/-- `all_metadata_dict.get(table_name)` — dict lookup on the metadata
snapshot. -/
def dictGet (m : List (String × CatalogTable)) (k : String) : Option CatalogTable :=
  (m.find? (fun p => p.1 = k)).map (fun p => p.2)

/-- Python `str.upper()` (ASCII model): character-wise upper-casing, the
same character map as Lean's `String.toUpper` but kernel-reducible. -/
def upper (s : String) : String := String.mk (s.data.map Char.toUpper)

/-- First loop of `search_and_format_results` (lines 126-136): find the
first returned document whose table name case-insensitively equals the
query; its (original-case) table name is promoted. -/
def exact_first (q : String) (docs : List (String × ℚ)) : Option String :=
  (docs.find? (fun d => upper q = upper d.1)).map (fun d => d.1)

/-- One iteration of the second loop of `search_and_format_results`
(lines 139-151): skip documents matching the promoted exact name, add
the rest when their distance beats the `0.3` threshold, keeping the
minimum distance per table. -/
def ft_step (q : String) (ef : Bool) (m : List (String × ℚ)) (d : String × ℚ) :
    List (String × ℚ) :=
  if ef ∧ upper q = upper d.1 then m
  else if d.2 < threshold then update_min m d.1 d.2
  else m

/-- The `found_tables` dict after both loops of
`search_and_format_results`: the exact match (if any) is inserted first
with forced distance `0.0`, then every document is folded through
`ft_step`. -/
def found_tables (q : String) (docs : List (String × ℚ)) : List (String × ℚ) :=
  match exact_first q docs with
  | some t => docs.foldl (ft_step q true) [(t, 0)]
  | none => docs.foldl (ft_step q false) []

/-- `sorted(found_tables.items(), key=lambda item: item[1])`: Python's
sort is stable and ascending on the score, which is exactly Mathlib's
`insertionSort` with `≤` on the second component. -/
def sort_by_score (l : List (String × ℚ)) : List (String × ℚ) :=
  l.insertionSort (fun a b => a.2 ≤ b.2)

/-- One entry of `results_list` (lines 164-178 of `main.py`). -/
def mk_entry (t : String) (s : ℚ) (td : CatalogTable) (base : String) :
    TableSearchResult :=
  { similarity_score := roundTo4 s
  , table_name := t
  , table_description := td.description
  , openmetadata_url :=
      base ++ "/explore/?search=" ++ t ++ "&sort=_score&page=1&size=15"
  , column_descriptions :=
      (td.columns.getD []).map (fun c =>
        { column_name := c.name
        , description := c.description
        , data_type := c.dataTypeDisplay.getD "N/A"
        , is_primary_key := c.isPrimaryKey.getD false }) }

/-- The body of the final loop of `search_and_format_results`: a table
is emitted only when `all_metadata_dict.get(table_name)` is truthy. -/
def entry_of (md : List (String × CatalogTable)) (base : String)
    (p : String × ℚ) : Option TableSearchResult :=
  (dictGet md p.1).map (fun td => mk_entry p.1 p.2 td base)

/-- `results_list` of `search_and_format_results` (lines 160-178). -/
def results_list (ft : List (String × ℚ)) (md : List (String × CatalogTable))
    (base : String) : List TableSearchResult :=
  (sort_by_score ft).filterMap (entry_of md base)

/-- `search_and_format_results(query, vector_db, all_metadata_dict,
openmetadata_base_url)` where `similar_docs` is what
`vector_db.similarity_search_with_score(query, k=top_k)` returned.
Returns `none` exactly where the Python function returns `None`
(lines 117 and 158). -/
def search_and_format_results (query : String) (similar_docs : List (String × ℚ))
    (all_metadata_dict : List (String × CatalogTable)) (base : String) :
    Option (List TableSearchResult) :=
  if similar_docs = [] then none
  else if found_tables query similar_docs = [] then none
  else some (results_list (found_tables query similar_docs) all_metadata_dict base)

/-- The process-wide `search_engine_globals` dict, restricted to the
keys the lifecycle manager and the query service use.  `vector_db` is an
opaque index handle: a function from a query and `k` to scored
documents.  `embedding_model` only matters through its presence. -/
structure Globals where
  metadata_path : Option String := none
  faiss_index_path : Option String := none
  metadata_mtime : Option ℚ := none
  metadata_mtime_map : List (String × ℚ) := []
  metadata_dict : Option (List (String × CatalogTable)) := none
  vector_db : Option (String → Nat → List (String × ℚ)) := none
  embedding_model : Bool := false
  openmetadata_base_url : Option String := none

/-- Errors surfaced by the `/search` endpoint. -/
inductive SearchErr
  | unavailable
deriving DecidableEq

/-- The `/search` endpoint `search_metadata` (lines 504-526): a 503 when
any of the three globals is falsy (Python `not all([...])`, under which
an empty dict and an empty string are falsy), otherwise a `"success"`
response wrapping `search_and_format_results` with `k = 3`.  The state
is threaded through so frame claims can be stated. -/
def search_metadata (query : String) (g : Globals) :
    Except SearchErr (SearchResponse × Globals) :=
  match g.vector_db, g.metadata_dict, g.openmetadata_base_url with
  | some db, some md, some url =>
      if md = [] ∨ url = "" then .error .unavailable
      else .ok
        ({ status := "success"
         , original_query := query
         , llm_response := some "LLM 응답은 향후 추가될 예정입니다."
         , results := search_and_format_results query (db query 3) md url }, g)
  | _, _, _ => .error .unavailable

example : search_and_format_results "q" [] [] "u" = none := by decide
example :
    search_and_format_results "users" [("USERS", mkRat 1 2)]
      [("USERS", ⟨"USERS", "user accounts", none⟩)] "u" =
      some [mk_entry "USERS" 0 ⟨"USERS", "user accounts", none⟩ "u"] := by decide
example : search_and_format_results "q" [("A", mkRat 2 5)] [] "u" = none := by decide
example :
    search_and_format_results "q" [("T", mkRat 1 5), ("T", mkRat 1 10)]
      [("T", ⟨"T", "d", none⟩)] "u" =
      some [mk_entry "T" (mkRat 1 10) ⟨"T", "d", none⟩ "u"] := by decide

/-- Split a list of characters at `/`, the POSIX path separator. -/
def splitSlash (cs : List Char) : List (List Char) :=
  cs.foldr
    (fun c acc =>
      match acc with
      | [] => if c = '/' then [[], []] else [[c]]
      | a :: rest => if c = '/' then [] :: a :: rest else (c :: a) :: rest)
    [[]]

/-- The final path component (`Path(...).name` for a canonical POSIX
path without a trailing slash). -/
def lastComponent (p : String) : String :=
  String.mk (((splitSlash p.data).getLast?).getD [])

/-- The index of the last `.` in a file name, `name.rfind('.')` when a
dot exists.  (`pathlib` computes this first, and only then checks that
the dot is internal.) -/
def lastDotIdx (cs : List Char) : Option Nat :=
  ((List.range cs.length).filter (fun i => cs.getD i ' ' = '.')).getLast?

/-- `Path(metadata_path).stem`, following CPython's
`i = name.rfind('.'); return name[:i] if 0 < i < len(name) - 1 else
name`: the name is cut at the last dot only when that dot is neither the
first nor the last character; otherwise (no dot, leading dot, or
trailing dot) the stem is the whole name. -/
def stemOf (p : String) : String :=
  let name := lastComponent p
  match lastDotIdx name.data with
  | some i =>
      if 0 < i ∧ i + 1 < name.data.length then String.mk (name.data.take i)
      else name
  | none => name

/-- `metadata_path.stem.replace(" ", "_").replace(".", "_")` from
`derive_faiss_index_path` (line 301). -/
def sanitizeStem (p : String) : String :=
  String.mk ((stemOf p).data.map (fun c => if c = ' ' ∨ c = '.' then '_' else c))

/-- `derive_faiss_index_path` (lines 299-302): the index directory is
the storage base directory (`FAISS_INDEX_DIR`, here a parameter) joined
with the sanitised stem of the metadata path. -/
def derive_faiss_index_path (baseDir : String) (p : String) : String :=
  baseDir ++ "/" ++ sanitizeStem p

example : sanitizeStem "a/foo.json" = "foo" := by decide
example : sanitizeStem "q/x.y." = "x_y_" := by decide
example : sanitizeStem "r/x_y_.json" = "x_y_" := by decide
example : sanitizeStem "d/.env" = "_env" := by decide
example : sanitizeStem "m/archive.tar.gz" = "archive_tar" := by decide

/-- The read-only environment of one `refresh_faiss_index_if_needed`
call: the configured index base directory and the outcomes of the
filesystem and FAISS operations the call may perform.  `fileMtime`
returns `none` when `Path.stat()` raises `FileNotFoundError`;
`loadMeta` returns `none` when `json.load` raises; `loadIndex` returns
`none` when `FAISS.load_local` raises (corrupt on-disk index);
`buildIndex` is the index produced by `create_and_save_faiss_index`. -/
structure World where
  baseDir : String
  fileMtime : String → Option ℚ
  indexOnDisk : String → Bool
  loadMeta : String → Option (List CatalogTable)
  loadIndex : String → Option (String → Nat → List (String × ℚ))
  buildIndex : List CatalogTable → (String → Nat → List (String × ℚ))

/-- Outcomes of `refresh_faiss_index_if_needed`: the three
`HTTPException`s it raises itself (503 missing configuration, 404
missing metadata file, 400 JSON parse failure) and `exception` for any
error it does not catch and lets propagate (a parse failure or a
`FAISS.load_local` failure inside the loaded-index branch). -/
inductive RefreshErr
  | unavailable
  | notFound
  | parseError
  | exception
deriving DecidableEq

/-- Result of a successful `refresh_faiss_index_if_needed` call: the
returned status string, the updated `search_engine_globals`, and how
many embedding computations (`create_and_save_faiss_index` calls) were
performed. -/
structure RefreshOut where
  status : String
  st : Globals
  embeds : Nat

/-- `{table['name']: table for table in metadata}` (lines 356 and 378):
a Python dict comprehension keeps the position of the first insertion of
a key and the value of the last. -/
def mkDict (ts : List CatalogTable) : List (String × CatalogTable) :=
  ts.foldl
    (fun acc t =>
      if (acc.find? (fun p => p.1 = t.name)).isSome then
        acc.map (fun p => if p.1 = t.name then (t.name, t) else p)
      else acc ++ [(t.name, t)])
    []

/-- `metadata_mtime_map.get(key)`. -/
def lookupQ (m : List (String × ℚ)) (k : String) : Option ℚ :=
  (m.find? (fun p => p.1 = k)).map (fun p => p.2)

/-- `metadata_mtime_map[key] = v`: Python dict assignment (update in
place, or append for a new key). -/
def setQ (m : List (String × ℚ)) (k : String) (v : ℚ) : List (String × ℚ) :=
  if (m.find? (fun p => p.1 = k)).isSome then
    m.map (fun p => if p.1 = k then (k, v) else p)
  else m ++ [(k, v)]

/-- Python float truthiness for an optional modification time: `None`
and `0.0` are falsy.  This drives the `if last_mtime and ...` and
`if cached_mtime and ...` guards of `refresh_faiss_index_if_needed`. -/
def truthyQ : Option ℚ → Prop
  | none => False
  | some v => v ≠ 0

instance : ∀ o : Option ℚ, Decidable (truthyQ o)
  | none => isFalse (fun h => h)
  | some v => inferInstanceAs (Decidable (v ≠ 0))

/-- Lines 324-329 of `refresh_faiss_index_if_needed`: when the requested
path differs from the registered one, re-point the globals at the new
path, re-derive the index directory, restore the fingerprint recorded in
`metadata_mtime_map` for that path, and drop the active index.  Returns
the updated globals and the `path_changed` flag. -/
def resolveSource (p : String) (g : Globals) (w : World) : Globals × Bool :=
  if g.metadata_path ≠ some p then
    ({ g with metadata_path := some p
            , faiss_index_path := some (derive_faiss_index_path w.baseDir p)
            , metadata_mtime := lookupQ g.metadata_mtime_map p
            , vector_db := none }, true)
  else (g, false)

/-- Lines 331-334: ensure `faiss_index_path` is populated. -/
def withIndexPath (p : String) (w : World) (g : Globals) : Globals :=
  match g.faiss_index_path with
  | none => { g with faiss_index_path := some (derive_faiss_index_path w.baseDir p) }
  | some _ => g

/-- Lines 343-385 of `refresh_faiss_index_if_needed`, after the
successful `stat` call: the lock-free fast skip path, then (under the
rebuild lock, which in this sequential model re-reads the same state)
the load-existing-index branch for a changed path, the re-checked skip,
and finally the full rebuild.  `current` is the fresh fingerprint. -/
def refreshAfterStat (p : String) (w : World) (g2 : Globals) (pathChanged : Bool)
    (current : ℚ) : Except RefreshErr RefreshOut :=
  if pathChanged = false ∧ w.indexOnDisk (g2.faiss_index_path.getD "") = true ∧
      truthyQ g2.metadata_mtime ∧ current ≤ g2.metadata_mtime.getD 0 then
    .ok ⟨"skipped", g2, 0⟩
  else if pathChanged = true ∧ w.indexOnDisk (g2.faiss_index_path.getD "") = true ∧
      truthyQ (lookupQ g2.metadata_mtime_map p) ∧
      current ≤ (lookupQ g2.metadata_mtime_map p).getD 0 then
    match w.loadMeta p with
    | none => .error .exception
    | some tables =>
      match w.loadIndex (g2.faiss_index_path.getD "") with
      | none => .error .exception
      | some db =>
        .ok ⟨"loaded",
             { g2 with metadata_dict := some (mkDict tables)
                     , vector_db := some db
                     , metadata_mtime := lookupQ g2.metadata_mtime_map p }, 0⟩
  else if pathChanged = false ∧ w.indexOnDisk (g2.faiss_index_path.getD "") = true ∧
      truthyQ g2.metadata_mtime ∧ current ≤ g2.metadata_mtime.getD 0 then
    .ok ⟨"skipped", g2, 0⟩
  else
    match w.loadMeta p with
    | none => .error .parseError
    | some tables =>
      .ok ⟨"updated",
           { g2 with metadata_dict := some (mkDict tables)
                   , vector_db := some (w.buildIndex tables)
                   , metadata_mtime := some current
                   , metadata_mtime_map := setQ g2.metadata_mtime_map p current }, 1⟩

/-- `refresh_faiss_index_if_needed(metadata_path)` (lines 305-385).
`arg = none` falls back to the registered path; a missing path or
embedding model is the 503 branch; a failed `stat` is the 404 branch;
the rest is `refreshAfterStat`. -/
def refresh_faiss_index_if_needed (arg : Option String) (g : Globals) (w : World) :
    Except RefreshErr RefreshOut :=
  match arg.orElse (fun _ => g.metadata_path), g.embedding_model with
  | none, _ => .error .unavailable
  | some _, false => .error .unavailable
  | some p, true =>
    match resolveSource p g w with
    | (g1, pathChanged) =>
      match w.fileMtime p with
      | none => .error .notFound
      | some current =>
        refreshAfterStat p w (withIndexPath p w g1) pathChanged current

/-- Status projection of a refresh outcome (the `RefreshOut` carries an
opaque index handle, so outcomes are compared through projections). -/
def statusOf : Except RefreshErr RefreshOut → Option String
  | .ok o => some o.status
  | .error _ => none

/-- Embedding-computation-count projection of a refresh outcome. -/
def embedsOf : Except RefreshErr RefreshOut → Option Nat
  | .ok o => some o.embeds
  | .error _ => none

/-- Error projection of a refresh outcome. -/
def errOf : Except RefreshErr RefreshOut → Option RefreshErr
  | .ok _ => none
  | .error e => some e

/-- Concrete globals exercising the lifecycle model in the examples and
counterexamples below: a registered source at path `z.json` whose index
directory exists on disk. -/
def gZero : Globals :=
  { metadata_path := some "z.json"
  , faiss_index_path := some "idx/z"
  , embedding_model := true }

/-- A world where the metadata file always reports modification time
`0.0` (the Unix epoch) and the on-disk index always exists. -/
def wZero : World :=
  { baseDir := "idx"
  , fileMtime := fun _ => some 0
  , indexOnDisk := fun _ => true
  , loadMeta := fun _ => some []
  , loadIndex := fun _ => some (fun _ _ => [])
  , buildIndex := fun _ => fun _ _ => [] }

example :
    statusOf (refresh_faiss_index_if_needed (some "z.json") gZero wZero) =
      some "updated" := by decide

/-- The value combination a `found_tables[t] = s`-style dict update
performs: first write, or minimum with the existing value. -/
def accMin (o : Option ℚ) (s : ℚ) : Option ℚ :=
  match o with
  | none => some s
  | some v => some (min v s)

theorem lookupA_cons (a : String) (b : ℚ) (m : List (String × ℚ)) (t : String) :
    lookupA ((a, b) :: m) t = if a = t then some b else lookupA m t := by
  by_cases h : a = t <;> simp [lookupA, List.find?_cons, h]

theorem setA_cons (a : String) (b : ℚ) (m : List (String × ℚ)) (k : String) (v : ℚ) :
    setA ((a, b) :: m) k v =
      (if a = k then (k, v) else (a, b)) :: setA m k v := by
  simp [setA]

theorem update_min_none (m : List (String × ℚ)) (k : String) (v : ℚ)
    (h : lookupA m k = none) : update_min m k v = m ++ [(k, v)] := by
  rw [update_min, h]

theorem update_min_some (m : List (String × ℚ)) (k : String) (v w : ℚ)
    (h : lookupA m k = some w) :
    update_min m k v = if v < w then setA m k v else m := by
  rw [update_min, h]

theorem not_key_of_lookupA_none (m : List (String × ℚ)) (k : String)
    (h : lookupA m k = none) : ∀ p ∈ m, p.1 ≠ k := by
  intro p hp
  have hf : List.find? (fun p => decide (p.1 = k)) m = none := by
    unfold lookupA at h
    rcases hf : List.find? (fun p => decide (p.1 = k)) m with _ | x
    · exact hf
    · rw [hf] at h; cases h
  have := List.find?_eq_none.mp hf p hp
  simpa using this

theorem lookupA_setA (m : List (String × ℚ)) (k t : String) (v : ℚ) :
    lookupA (setA m k v) t =
      if t = k then (lookupA m k).map (fun _ => v) else lookupA m t := by
  induction m with
  | nil => by_cases h : t = k <;> simp [lookupA, setA, h]
  | cons p m ih =>
    obtain ⟨a, b⟩ := p
    by_cases hak : a = k
    · subst hak
      by_cases hta : t = a
      · subst hta
        simp [setA_cons, lookupA_cons]
      · have hat : ¬ a = t := fun hh => hta hh.symm
        simp [setA_cons, lookupA_cons, hta, hat, ih]
    · have hka : ¬ k = a := fun hh => hak hh.symm
      by_cases hta : t = a
      · subst hta
        simp [setA_cons, lookupA_cons, hak, hka]
      · have hat : ¬ a = t := fun hh => hta hh.symm
        simp [setA_cons, lookupA_cons, hak, hka, hta, hat, ih]

theorem keys_setA (m : List (String × ℚ)) (k : String) (v : ℚ) :
    (setA m k v).map (fun p => p.1) = m.map (fun p => p.1) := by
  induction m with
  | nil => rfl
  | cons p m ih =>
    obtain ⟨a, b⟩ := p
    rw [setA_cons]
    by_cases hak : a = k <;> simp [hak, ih]

theorem lookupA_append_single (m : List (String × ℚ)) (k t : String) (v : ℚ) :
    lookupA (m ++ [(k, v)]) t =
      match lookupA m t with
      | some w => some w
      | none => if k = t then some v else none := by
  induction m with
  | nil => by_cases h : k = t <;> simp [lookupA, h]
  | cons p m ih =>
    obtain ⟨a, b⟩ := p
    rw [List.cons_append, lookupA_cons, lookupA_cons]
    by_cases hat : a = t <;> simp [hat, ih]

theorem lookupA_update_min (m : List (String × ℚ)) (k t : String) (v : ℚ) :
    lookupA (update_min m k v) t =
      if t = k then accMin (lookupA m k) v else lookupA m t := by
  rcases hm : lookupA m k with _ | w
  · rw [update_min_none m k v hm, lookupA_append_single]
    by_cases h : t = k
    · subst h; simp [hm, accMin]
    · have h2 : ¬ (k = t) := fun hh => h hh.symm
      rcases hmt : lookupA m t with _ | u <;> simp [h2, h]
  · rw [update_min_some m k v w hm]
    by_cases hv : v < w
    · rw [if_pos hv, lookupA_setA]
      by_cases h : t = k
      · simp [h, hm, accMin, min_eq_right (le_of_lt hv)]
      · simp [h]
    · rw [if_neg hv]
      by_cases h : t = k
      · subst h
        simp [hm, accMin, min_eq_left (not_lt.mp hv)]
      · simp [h]

theorem keys_update_min_nodup (m : List (String × ℚ)) (k : String) (v : ℚ)
    (h : (m.map (fun p => p.1)).Nodup) :
    ((update_min m k v).map (fun p => p.1)).Nodup := by
  rcases hm : lookupA m k with _ | w
  · rw [update_min_none m k v hm]
    have hk : k ∉ m.map (fun p => p.1) := by
      intro hmem
      obtain ⟨p, hp, hp1⟩ := List.mem_map.mp hmem
      exact not_key_of_lookupA_none m k hm p hp hp1
    simp only [List.map_append, List.map_cons, List.map_nil]
    exact List.Nodup.append h (List.nodup_singleton k)
      (by simpa [List.disjoint_singleton] using hk)
  · rw [update_min_some m k v w hm]
    by_cases hv : v < w
    · rw [if_pos hv, keys_setA]; exact h
    · rw [if_neg hv]; exact h

theorem lookupA_of_mem_nodup (m : List (String × ℚ)) (t : String) (s : ℚ)
    (hnd : (m.map (fun p => p.1)).Nodup) (hmem : (t, s) ∈ m) :
    lookupA m t = some s := by
  induction m with
  | nil => cases hmem
  | cons p m ih =>
    obtain ⟨a, b⟩ := p
    rw [lookupA_cons]
    rw [List.map_cons, List.nodup_cons] at hnd
    rcases List.mem_cons.mp hmem with h | h
    · rw [Prod.mk.injEq] at h
      obtain ⟨h1, h2⟩ := h
      subst h1; subst h2
      simp
    · have ha : ¬ (a = t) := by
        intro hh
        subst hh
        exact hnd.1 (List.mem_map.mpr ⟨(a, s), h, rfl⟩)
      rw [if_neg ha]
      exact ih hnd.2 h

theorem mem_of_lookupA (m : List (String × ℚ)) (t : String) (s : ℚ)
    (h : lookupA m t = some s) : (t, s) ∈ m := by
  unfold lookupA at h
  rcases hf : List.find? (fun p => decide (p.1 = t)) m with _ | p
  · rw [hf] at h; cases h
  · rw [hf] at h
    have hp := List.find?_some hf
    have hmem := List.mem_of_find?_eq_some hf
    obtain ⟨a, b⟩ := p
    simp at hp h
    subst hp; subst h
    exact hmem

/-- The distances a non-promoted table `t` contributes to the
`found_tables` dict: the scores of its documents that beat the
threshold. -/
def sub_scores (docs : List (String × ℚ)) (t : String) : List ℚ :=
  (docs.filter (fun d => d.1 = t ∧ d.2 < threshold)).map (fun d => d.2)

/-- All distances at which the index returned table `t`. -/
def all_scores (docs : List (String × ℚ)) (t : String) : List ℚ :=
  (docs.filter (fun d => d.1 = t)).map (fun d => d.2)

theorem lookupA_ft_step (q : String) (ef : Bool) (m : List (String × ℚ))
    (d : String × ℚ) (t : String)
    (hskip : ef = true → ¬ upper q = upper t) :
    lookupA (ft_step q ef m d) t =
      if d.1 = t ∧ d.2 < threshold then accMin (lookupA m t) d.2
      else lookupA m t := by
  unfold ft_step
  by_cases hs : (ef = true) ∧ upper q = upper d.1
  · rw [if_pos (by exact_mod_cast hs)]
    have hdt : ¬ (d.1 = t) := fun hh => (hskip hs.1) (hh ▸ hs.2)
    rw [if_neg (fun hc => hdt hc.1)]
  · rw [if_neg (by exact_mod_cast hs)]
    by_cases hth : d.2 < threshold
    · rw [if_pos hth, lookupA_update_min]
      by_cases hdt : d.1 = t
      · simp [hdt, hth]
      · rw [if_neg (fun hh : t = d.1 => hdt hh.symm),
          if_neg (fun hc : d.1 = t ∧ d.2 < threshold => hdt hc.1)]
    · rw [if_neg hth]
      simp [hth]

theorem lookupA_ft_fold (q : String) (ef : Bool) (t : String)
    (hskip : ef = true → ¬ upper q = upper t)
    (docs : List (String × ℚ)) :
    ∀ m : List (String × ℚ),
      lookupA (docs.foldl (ft_step q ef) m) t =
        List.foldl accMin (lookupA m t) (sub_scores docs t) := by
  induction docs with
  | nil => intro m; rfl
  | cons d ds ih =>
    intro m
    rw [List.foldl_cons, ih (ft_step q ef m d), lookupA_ft_step q ef m d t hskip]
    by_cases hc : d.1 = t ∧ d.2 < threshold
    · rw [if_pos hc]
      have hss : sub_scores (d :: ds) t = d.2 :: sub_scores ds t := by
        simp [sub_scores, List.filter_cons, hc.1, hc.2]
      rw [hss, List.foldl_cons]
    · rw [if_neg hc]
      have hss : sub_scores (d :: ds) t = sub_scores ds t := by
        simp only [sub_scores, List.filter_cons]
        rw [if_neg (by simpa using hc)]
    
      rw [hss]

theorem foldl_accMin_spec (l : List ℚ) :
    ∀ (o : Option ℚ) (s : ℚ), List.foldl accMin o l = some s →
      (s ∈ l ∨ o = some s) ∧ (∀ x ∈ l, s ≤ x) ∧ (∀ v, o = some v → s ≤ v) := by
  induction l with
  | nil =>
    intro o s h
    rw [List.foldl_nil] at h
    refine ⟨Or.inr h, by simp, fun v hv => ?_⟩
    rw [h] at hv
    cases hv
    exact le_refl _
  | cons a l ih =>
    intro o s h
    rw [List.foldl_cons] at h
    obtain ⟨h1, h2, h3⟩ := ih (accMin o a) s h
    rcases o with _ | v0
    · have ha : s ≤ a := h3 a rfl
      refine ⟨?_, ?_, ?_⟩
      · rcases h1 with h1 | h1
        · exact Or.inl (List.mem_cons_of_mem _ h1)
        · have haa : a = s := by simpa [accMin] using h1
          exact Or.inl (haa ▸ List.mem_cons_self _ _)
      · intro x hx
        rcases List.mem_cons.mp hx with rfl | hx
        · exact ha
        · exact h2 x hx
      · intro v hv; cases hv
    · have hm : s ≤ min v0 a := h3 (min v0 a) rfl
      refine ⟨?_, ?_, ?_⟩
      · rcases h1 with h1 | h1
        · exact Or.inl (List.mem_cons_of_mem _ h1)
        · have hmin : min v0 a = s := by simpa [accMin] using h1
          rcases min_choice v0 a with hc | hc
          · exact Or.inr (by rw [← hmin, hc])
          · refine Or.inl ?_
            rw [← hmin, hc]
            exact List.mem_cons_self _ _
      · intro x hx
        rcases List.mem_cons.mp hx with rfl | hx
        · exact le_trans hm (min_le_right _ _)
        · exact h2 x hx
      · intro v hv
        cases hv
        exact le_trans hm (min_le_left _ _)

theorem sub_scores_mem (docs : List (String × ℚ)) (t : String) (x : ℚ)
    (hx : x ∈ sub_scores docs t) : x ∈ all_scores docs t ∧ x < threshold := by
  obtain ⟨d, hd, hdx⟩ := List.mem_map.mp hx
  have hdf := List.mem_filter.mp hd
  have hprop : d.1 = t ∧ d.2 < threshold := by simpa using hdf.2
  constructor
  · exact List.mem_map.mpr ⟨d, List.mem_filter.mpr ⟨hdf.1, by simp [hprop.1]⟩, hdx⟩
  · rw [← hdx]; exact hprop.2

theorem mem_sub_scores_of_lt (docs : List (String × ℚ)) (t : String) (x : ℚ)
    (hx : x ∈ all_scores docs t) (hlt : x < threshold) : x ∈ sub_scores docs t := by
  obtain ⟨d, hd, hdx⟩ := List.mem_map.mp hx
  have hdf := List.mem_filter.mp hd
  have hp1 : d.1 = t := by simpa using hdf.2
  exact List.mem_map.mpr
    ⟨d, List.mem_filter.mpr ⟨hdf.1, by simp [hp1, hdx ▸ hlt]⟩, hdx⟩

theorem keys_ft_step_nodup (q : String) (ef : Bool) (m : List (String × ℚ))
    (d : String × ℚ) (h : (m.map (fun p => p.1)).Nodup) :
    ((ft_step q ef m d).map (fun p => p.1)).Nodup := by
  unfold ft_step
  by_cases hs : (ef = true) ∧ upper q = upper d.1
  · rwa [if_pos (by exact_mod_cast hs)]
  · rw [if_neg (by exact_mod_cast hs)]
    by_cases hth : d.2 < threshold
    · rw [if_pos hth]
      exact keys_update_min_nodup m d.1 d.2 h
    · rwa [if_neg hth]

theorem keys_ft_fold_nodup (q : String) (ef : Bool) (docs : List (String × ℚ)) :
    ∀ m : List (String × ℚ), (m.map (fun p => p.1)).Nodup →
      ((docs.foldl (ft_step q ef) m).map (fun p => p.1)).Nodup := by
  induction docs with
  | nil => intro m h; exact h
  | cons d ds ih =>
    intro m h
    rw [List.foldl_cons]
    exact ih _ (keys_ft_step_nodup q ef m d h)

theorem keys_found_tables_nodup (q : String) (docs : List (String × ℚ)) :
    ((found_tables q docs).map (fun p => p.1)).Nodup := by
  unfold found_tables
  rcases exact_first q docs with _ | t
  · exact keys_ft_fold_nodup q false docs [] (by simp)
  · exact keys_ft_fold_nodup q true docs [(t, 0)] (by simp)

theorem exact_first_some (q : String) (docs : List (String × ℚ)) (t : String)
    (h : exact_first q docs = some t) :
    upper q = upper t ∧ ∃ s, (t, s) ∈ docs := by
  unfold exact_first at h
  rcases hf : List.find? (fun d => decide (upper q = upper d.1)) docs with _ | d
  · rw [hf] at h; cases h
  · rw [hf] at h
    have hp := List.find?_some hf
    have hmem := List.mem_of_find?_eq_some hf
    simp at hp h
    subst h
    exact ⟨hp, d.2, hmem⟩

theorem exact_first_none (q : String) (docs : List (String × ℚ))
    (h : exact_first q docs = none) :
    ∀ d ∈ docs, ¬ upper q = upper d.1 := by
  intro d hd
  unfold exact_first at h
  rcases hf : List.find? (fun d => decide (upper q = upper d.1)) docs with _ | x
  · have := List.find?_eq_none.mp hf d hd
    simpa using this
  · rw [hf] at h; cases h

/-- Central characterisation of a non-promoted entry of `found_tables`:
its recorded score is a genuinely returned distance for that table, it
beats the threshold, and it is the minimum of all distances at which the
index returned the table. -/
theorem found_tables_min (q : String) (docs : List (String × ℚ)) (t : String)
    (s : ℚ) (ht : ¬ upper q = upper t)
    (h : lookupA (found_tables q docs) t = some s) :
    s ∈ all_scores docs t ∧ s < threshold ∧ ∀ x ∈ all_scores docs t, s ≤ x := by
  have hskip : ∀ ef : Bool, ef = true → ¬ upper q = upper t := fun _ _ => ht
  have hfold : List.foldl accMin none (sub_scores docs t) = some s := by
    unfold found_tables at h
    rcases he : exact_first q docs with _ | te
    · rw [he] at h
      rw [lookupA_ft_fold q false t (hskip false) docs []] at h
      simpa [lookupA] using h
    · rw [he] at h
      rw [lookupA_ft_fold q true t (hskip true) docs [(te, 0)]] at h
      have hne : ¬ (te = t) := by
        intro hh
        exact ht (hh ▸ (exact_first_some q docs te he).1)
      rwa [lookupA_cons, if_neg hne] at h
  obtain ⟨h1, h2, _⟩ := foldl_accMin_spec (sub_scores docs t) none s hfold
  have hs : s ∈ sub_scores docs t := by
    rcases h1 with h1 | h1
    · exact h1
    · cases h1
  obtain ⟨hall, hlt⟩ := sub_scores_mem docs t s hs
  refine ⟨hall, hlt, fun x hx => ?_⟩
  by_cases hxt : x < threshold
  · exact h2 x (mem_sub_scores_of_lt docs t x hx hxt)
  · exact le_trans (le_of_lt hlt) (not_lt.mp hxt)

theorem sort_by_score_perm (l : List (String × ℚ)) :
    (sort_by_score l).Perm l :=
  List.perm_insertionSort _ l

theorem sort_by_score_head (x : String × ℚ) (l : List (String × ℚ))
    (h : ∀ y ∈ l, x.2 ≤ y.2) :
    sort_by_score (x :: l) = x :: sort_by_score l := by
  simp only [sort_by_score, List.insertionSort]
  rcases hs : List.insertionSort (fun a b : String × ℚ => a.2 ≤ b.2) l with _ | ⟨y, ys⟩
  · simp [List.orderedInsert]
  · have hy : y ∈ l := by
      have := (List.perm_insertionSort (fun a b : String × ℚ => a.2 ≤ b.2) l).subset
      exact this (hs ▸ List.mem_cons_self _ _)
    rw [List.orderedInsert, if_pos (h y hy)]

theorem entry_of_some (md : List (String × CatalogTable)) (base : String)
    (p : String × ℚ) (e : TableSearchResult)
    (h : entry_of md base p = some e) :
    ∃ td, dictGet md p.1 = some td ∧ e = mk_entry p.1 p.2 td base := by
  unfold entry_of at h
  rcases hd : dictGet md p.1 with _ | td
  · rw [hd] at h; cases h
  · rw [hd] at h
    cases h
    exact ⟨td, rfl, rfl⟩

theorem names_filterMap_sublist (md : List (String × CatalogTable)) (base : String) :
    ∀ l : List (String × ℚ),
      ((l.filterMap (entry_of md base)).map (fun e => e.table_name)).Sublist
        (l.map (fun p => p.1)) := by
  intro l
  induction l with
  | nil => simp
  | cons p l ih =>
    rw [List.filterMap_cons]
    rcases he : entry_of md base p with _ | e
    · rw [List.map_cons]
      exact ih.cons _
    · obtain ⟨td, _, hetd⟩ := entry_of_some md base p e he
      rw [List.map_cons, List.map_cons, hetd]
      exact ih.cons₂ _

theorem results_list_names_nodup (ft : List (String × ℚ))
    (md : List (String × CatalogTable)) (base : String)
    (h : (ft.map (fun p => p.1)).Nodup) :
    ((results_list ft md base).map (fun e => e.table_name)).Nodup := by
  have hperm : ((sort_by_score ft).map (fun p => p.1)).Perm (ft.map (fun p => p.1)) :=
    (sort_by_score_perm ft).map _
  exact (names_filterMap_sublist md base (sort_by_score ft)).nodup
    (hperm.nodup_iff.mpr h)

theorem mem_results_list (ft : List (String × ℚ))
    (md : List (String × CatalogTable)) (base : String) (e : TableSearchResult)
    (h : e ∈ results_list ft md base) :
    ∃ p ∈ ft, ∃ td, dictGet md p.1 = some td ∧ e = mk_entry p.1 p.2 td base := by
  obtain ⟨p, hp, hpe⟩ := List.mem_filterMap.mp h
  obtain ⟨td, htd, hetd⟩ := entry_of_some md base p e hpe
  exact ⟨p, (sort_by_score_perm ft).subset hp, td, htd, hetd⟩

theorem results_list_cons_head (t : String) (rest : List (String × ℚ))
    (md : List (String × CatalogTable)) (base : String) (td : CatalogTable)
    (hnn : ∀ y ∈ rest, (0 : ℚ) ≤ y.2) (htd : dictGet md t = some td) :
    results_list ((t, 0) :: rest) md base =
      mk_entry t 0 td base :: results_list rest md base := by
  unfold results_list
  rw [sort_by_score_head (t, 0) rest hnn, List.filterMap_cons]
  have he : entry_of md base (t, 0) = some (mk_entry t 0 td base) := by
    unfold entry_of
    rw [htd]
    rfl
  rw [he]

theorem mem_setA (m : List (String × ℚ)) (k : String) (v : ℚ) (y : String × ℚ)
    (h : y ∈ setA m k v) : y = (k, v) ∨ y ∈ m := by
  obtain ⟨p, hp, hpy⟩ := List.mem_map.mp h
  by_cases hpk : p.1 = k
  · rw [if_pos hpk] at hpy; exact Or.inl hpy.symm
  · rw [if_neg hpk] at hpy; exact Or.inr (hpy ▸ hp)

theorem ft_fold_head (q t : String) (hq : upper q = upper t)
    (docs : List (String × ℚ)) :
    ∀ m : List (String × ℚ), (∀ y ∈ m, (0 : ℚ) ≤ y.2) →
      (∀ d ∈ docs, (0 : ℚ) ≤ d.2) →
      ∃ rest, docs.foldl (ft_step q true) ((t, 0) :: m) = (t, 0) :: rest ∧
        ∀ y ∈ rest, (0 : ℚ) ≤ y.2 := by
  induction docs with
  | nil => intro m hm _; exact ⟨m, rfl, hm⟩
  | cons d ds ih =>
    intro m hm hd
    rw [List.foldl_cons]
    have hds : ∀ x ∈ ds, (0 : ℚ) ≤ x.2 := fun x hx => hd x (List.mem_cons_of_mem _ hx)
    by_cases hs : upper q = upper d.1
    · rw [show ft_step q true ((t, 0) :: m) d = (t, 0) :: m by
        unfold ft_step; rw [if_pos ⟨rfl, hs⟩]]
      exact ih m hm hds
    · have hdt : ¬ (d.1 = t) := fun hh => hs (hh ▸ hq)
      have hstep : ∃ m2, ft_step q true ((t, 0) :: m) d = (t, 0) :: m2 ∧
          ∀ y ∈ m2, (0 : ℚ) ≤ y.2 := by
        unfold ft_step
        rw [if_neg (by simpa using fun _ : True => hs)]
        by_cases hth : d.2 < threshold
        · rw [if_pos hth]
          rcases hlk : lookupA ((t, 0) :: m) d.1 with _ | w
          · rw [update_min_none _ _ _ hlk, List.cons_append]
            refine ⟨m ++ [(d.1, d.2)], rfl, fun y hy => ?_⟩
            rcases List.mem_append.mp hy with hy | hy
            · exact hm y hy
            · rcases List.mem_singleton.mp hy with rfl
              exact hd d (List.mem_cons_self _ _)
          · rw [update_min_some _ _ _ _ hlk]
            by_cases hvw : d.2 < w
            · rw [if_pos hvw, setA_cons, if_neg (fun hh : t = d.1 => hdt hh.symm)]
              refine ⟨setA m d.1 d.2, rfl, fun y hy => ?_⟩
              rcases mem_setA m d.1 d.2 y hy with rfl | hy
              · exact hd d (List.mem_cons_self _ _)
              · exact hm y hy
            · rw [if_neg hvw]
              exact ⟨m, rfl, hm⟩
        · rw [if_neg hth]
          exact ⟨m, rfl, hm⟩
      obtain ⟨m2, hm2, hm2n⟩ := hstep
      rw [hm2]
      exact ih m2 hm2n hds

theorem roundTo4_zero : roundTo4 0 = 0 := by decide

theorem safr_some (q : String) (docs : List (String × ℚ))
    (md : List (String × CatalogTable)) (base : String) (l : List TableSearchResult)
    (h : search_and_format_results q docs md base = some l) :
    docs ≠ [] ∧ found_tables q docs ≠ [] ∧
      l = results_list (found_tables q docs) md base := by
  unfold search_and_format_results at h
  by_cases h1 : docs = []
  · rw [if_pos h1] at h; cases h
  · rw [if_neg h1] at h
    by_cases h2 : found_tables q docs = []
    · rw [if_pos h2] at h; cases h
    · rw [if_neg h2] at h
      cases h
      exact ⟨h1, h2, rfl⟩

theorem ft_fold_empty (q : String) (docs : List (String × ℚ))
    (hbig : ∀ d ∈ docs, ¬ (d.2 < threshold)) :
    docs.foldl (ft_step q false) [] = [] := by
  induction docs with
  | nil => rfl
  | cons d ds ih =>
    rw [List.foldl_cons]
    have hstep : ft_step q false [] d = [] := by
      unfold ft_step
      rw [if_neg (fun hc => by cases hc.1), if_neg (hbig d (List.mem_cons_self _ _))]
    rw [hstep]
    exact ih (fun x hx => hbig x (List.mem_cons_of_mem _ hx))

/-- C2: for every query and index result set with (nonnegative) cosine
distances, if some returned document's table name case-insensitively
equals the full query string and the (first such) table is present in
the metadata snapshot, then that table appears first in the result list
with `similarity_score = 0.0`, regardless of its raw distance. -/
theorem c2_exact_match_first (q : String) (docs : List (String × ℚ))
    (md : List (String × CatalogTable)) (base : String) (t : String)
    (td : CatalogTable)
    (hex : exact_first q docs = some t)
    (hnn : ∀ d ∈ docs, (0 : ℚ) ≤ d.2)
    (htd : dictGet md t = some td) :
    ∃ l e, search_and_format_results q docs md base = some l ∧
      l.head? = some e ∧ e.table_name = t ∧ e.similarity_score = 0 := by
  have hq : upper q = upper t := (exact_first_some q docs t hex).1
  obtain ⟨rest, hft, hrest⟩ :=
    ft_fold_head q t hq docs [] (by simp) hnn
  have hft2 : found_tables q docs = (t, 0) :: rest := by
    unfold found_tables
    rw [hex]
    exact hft
  have hdocs : docs ≠ [] := by
    intro hd
    rw [hd] at hex
    cases hex
  refine ⟨results_list (found_tables q docs) md base, mk_entry t 0 td base, ?_, ?_, rfl, ?_⟩
  · unfold search_and_format_results
    rw [if_neg hdocs, if_neg (by rw [hft2]; exact List.cons_ne_nil _ _)]
  · rw [hft2, results_list_cons_head t rest md base td hrest htd]
    rfl
  · exact roundTo4_zero

/-- The catalog entry the concrete witnesses and counterexamples use. -/
def cUsers : CatalogTable := ⟨"USERS", "user accounts", none⟩

theorem c2_exact_match_first_witness :
    ∃ l e, search_and_format_results "users" [("USERS", mkRat 1 2)]
        [("USERS", cUsers)] "u" = some l ∧
      l.head? = some e ∧ e.table_name = "USERS" ∧ e.similarity_score = 0 :=
  c2_exact_match_first "users" [("USERS", mkRat 1 2)] [("USERS", cUsers)] "u"
    "USERS" cUsers (by decide) (by decide) (by decide)

/-- C3: every non-promoted entry of a returned result list records a
genuinely returned distance strictly below `3/10`; and when no exact
match exists and no returned distance is below `3/10`, the result is
empty (`None`), not the best-effort closest match. -/
theorem c3_threshold_filtering (q : String) (docs : List (String × ℚ))
    (md : List (String × CatalogTable)) (base : String) :
    (∀ l, search_and_format_results q docs md base = some l →
        ∀ e ∈ l, upper q = upper e.table_name ∨
          ∃ s, (e.table_name, s) ∈ docs ∧ s < 3/10 ∧
            e.similarity_score = roundTo4 s) ∧
    ((exact_first q docs = none) → (∀ d ∈ docs, ¬ (d.2 < 3/10)) →
        search_and_format_results q docs md base = none) := by
  constructor
  · intro l hl e he
    obtain ⟨hdocs, hft, hlr⟩ := safr_some q docs md base l hl
    subst hlr
    obtain ⟨p, hp, td, htd, hetd⟩ := mem_results_list _ md base e he
    by_cases hu : upper q = upper p.1
    · left
      rw [hetd]
      exact hu
    · right
      have hlk : lookupA (found_tables q docs) p.1 = some p.2 :=
        lookupA_of_mem_nodup _ p.1 p.2 (keys_found_tables_nodup q docs)
          (by rw [← Prod.mk.eta (p := p)] at hp; exact hp)
      obtain ⟨hall, hlt, _⟩ := found_tables_min q docs p.1 p.2 hu hlk
      obtain ⟨d, hd, hdx⟩ := List.mem_map.mp hall
      have hdf := List.mem_filter.mp hd
      have hd1 : d.1 = p.1 := by simpa using hdf.2
      refine ⟨p.2, ?_, ?_, ?_⟩
      · rw [hetd]
        have : d = (p.1, p.2) := by
          rw [← Prod.mk.eta (p := d), hd1, hdx]
        exact this ▸ hdf.1
      · rw [← threshold_eq]; exact hlt
      · rw [hetd]
        rfl
  · intro hex hbig
    by_cases hdocs : docs = []
    · unfold search_and_format_results
      rw [if_pos hdocs]
    · have hbig2 : ∀ d ∈ docs, ¬ (d.2 < threshold) := by
        intro d hd
        rw [threshold_eq]
        exact hbig d hd
      have hft : found_tables q docs = [] := by
        unfold found_tables
        rw [hex]
        exact ft_fold_empty q docs hbig2
      unfold search_and_format_results
      rw [if_neg hdocs, if_pos hft]

/-- C3 witness: an unrelated single-document result at distance `2/5`
(no exact match, nothing below the threshold) yields `None`. -/
theorem c3_threshold_filtering_witness :
    search_and_format_results "q" [("A", mkRat 2 5)] [("A", cUsers)] "u" = none :=
  (c3_threshold_filtering "q" [("A", mkRat 2 5)] [("A", cUsers)] "u").2
    (by decide)
    (by
      intro d hd
      rcases List.mem_singleton.mp hd with rfl
      norm_num [Rat.mkRat_eq_divInt, Rat.divInt_eq_div])

/-- C4: no table name appears twice in one result list, and every
non-promoted entry records (after rounding) the minimum distance among
all the distances at which the index returned that table. -/
theorem c4_dedup_min_distance (q : String) (docs : List (String × ℚ))
    (md : List (String × CatalogTable)) (base : String) (l : List TableSearchResult)
    (hl : search_and_format_results q docs md base = some l) :
    (l.map (fun e => e.table_name)).Nodup ∧
    ∀ e ∈ l, ¬ upper q = upper e.table_name →
      ∃ m : ℚ, (all_scores docs e.table_name).minimum = (m : WithTop ℚ) ∧
        e.similarity_score = roundTo4 m := by
  obtain ⟨hdocs, hft, hlr⟩ := safr_some q docs md base l hl
  subst hlr
  constructor
  · exact results_list_names_nodup _ md base (keys_found_tables_nodup q docs)
  · intro e he hu
    obtain ⟨p, hp, td, htd, hetd⟩ := mem_results_list _ md base e he
    have hu2 : ¬ upper q = upper p.1 := by
      rw [hetd] at hu
      exact hu
    have hlk : lookupA (found_tables q docs) p.1 = some p.2 :=
      lookupA_of_mem_nodup _ p.1 p.2 (keys_found_tables_nodup q docs)
        (by rw [← Prod.mk.eta (p := p)] at hp; exact hp)
    obtain ⟨hall, _, hmin⟩ := found_tables_min q docs p.1 p.2 hu2 hlk
    refine ⟨p.2, ?_, ?_⟩
    · rw [hetd]
      exact List.minimum_eq_coe_iff.mpr ⟨hall, hmin⟩
    · rw [hetd]
      rfl

/-- C4 witness: the index returns table `T` twice, at distances `1/5`
and `1/10`; the single result entry records the minimum, `1/10`. -/
theorem c4_dedup_min_distance_witness :
    (([mk_entry "T" (mkRat 1 10) ⟨"T", "d", none⟩ "u"].map
        (fun e => e.table_name)).Nodup) ∧
    ∀ e ∈ [mk_entry "T" (mkRat 1 10) ⟨"T", "d", none⟩ "u"],
      ¬ upper "q" = upper e.table_name →
      ∃ m : ℚ,
        (all_scores [("T", mkRat 1 5), ("T", mkRat 1 10)] e.table_name).minimum =
          (m : WithTop ℚ) ∧
        e.similarity_score = roundTo4 m :=
  c4_dedup_min_distance "q" [("T", mkRat 1 5), ("T", mkRat 1 10)]
    [("T", ⟨"T", "d", none⟩)] "u"
    [mk_entry "T" (mkRat 1 10) ⟨"T", "d", none⟩ "u"] (by decide)

/-- Concrete globals for the `/search` endpoint claims: a ready engine
whose index returns no documents for any query. -/
def gReadyEmpty : Globals :=
  { vector_db := some (fun _ _ => [])
  , metadata_dict := some [("T", cUsers)]
  , openmetadata_base_url := some "u" }

/-- The response `search_metadata` produces for any query against
`gReadyEmpty`. -/
def respNull : SearchResponse :=
  { status := "success"
  , original_query := "q"
  , llm_response := some "LLM 응답은 향후 추가될 예정입니다."
  , results := none }

/-- C1 counterexample: a query whose index lookup returns zero documents
gets `results = None` (serialised `null`), not the empty list the claim
demands; the status is `"success"`. -/
theorem c1_counterexample :
    search_metadata "q" gReadyEmpty = .ok (respNull, gReadyEmpty) ∧
    respNull.results = none ∧ ¬ respNull.results = some [] ∧
    respNull.status = "success" :=
  ⟨rfl, rfl, by decide, rfl⟩

/-- C1 (amended): for every query whose index lookup returns zero
documents on a ready engine, `Search` returns `status = "success"` and a
null (`None`) results field. -/
theorem c1_empty_lookup_success_null (q : String) (g : Globals)
    (db : String → Nat → List (String × ℚ))
    (md : List (String × CatalogTable)) (url : String)
    (hdb : g.vector_db = some db) (hmd : g.metadata_dict = some md)
    (hmd0 : ¬ md = []) (hurl : g.openmetadata_base_url = some url)
    (hurl0 : ¬ url = "") (hempty : db q 3 = []) :
    ∃ r, search_metadata q g = .ok (r, g) ∧ r.status = "success" ∧
      r.results = none := by
  unfold search_metadata
  simp only [hdb, hmd, hurl]
  rw [if_neg (by
    intro hc
    rcases hc with hc | hc
    · exact hmd0 hc
    · exact hurl0 hc)]
  refine ⟨_, rfl, rfl, ?_⟩
  rw [hempty]
  unfold search_and_format_results
  rw [if_pos rfl]

theorem c1_empty_lookup_success_null_witness :
    ∃ r, search_metadata "q" gReadyEmpty = .ok (r, gReadyEmpty) ∧
      r.status = "success" ∧ r.results = none :=
  c1_empty_lookup_success_null "q" gReadyEmpty (fun _ _ => []) [("T", cUsers)]
    "u" rfl rfl (by decide) rfl (by decide) rfl

/-- Concrete globals for the empty-query counterexample: the index
returns one document within the threshold for the empty query. -/
def gReadyClose : Globals :=
  { vector_db := some (fun _ _ => [("T", mkRat 1 10)])
  , metadata_dict := some [("T", cUsers)]
  , openmetadata_base_url := some "u" }

/-- The response `search_metadata` produces for the empty query against
`gReadyClose`: a non-empty result list. -/
def respClose : SearchResponse :=
  { status := "success"
  , original_query := ""
  , llm_response := some "LLM 응답은 향후 추가될 예정입니다."
  , results := some [mk_entry "T" (mkRat 1 10) cUsers "u"] }

/-- C9 counterexample: the empty query is not special-cased; when the
index returns a document within the threshold for the empty query, the
response carries a non-empty result list, contradicting the claimed
"empty-but-successful" response. -/
theorem c9_counterexample :
    search_metadata "" gReadyClose = .ok (respClose, gReadyClose) ∧
    respClose.status = "success" ∧
    ¬ respClose.results = none ∧ ¬ respClose.results = some [] :=
  ⟨rfl, rfl, by decide, by decide⟩

/-- C9 (amended): for the empty query string on a ready engine, `Search`
responds with `status = "success"` and never an error; the results
follow the same ranking rules as any other query (and need not be
empty). -/
theorem c9_empty_query_success (g : Globals)
    (db : String → Nat → List (String × ℚ))
    (md : List (String × CatalogTable)) (url : String)
    (hdb : g.vector_db = some db) (hmd : g.metadata_dict = some md)
    (hmd0 : ¬ md = []) (hurl : g.openmetadata_base_url = some url)
    (hurl0 : ¬ url = "") :
    ∃ r, search_metadata "" g = .ok (r, g) ∧ r.status = "success" ∧
      r.results = search_and_format_results "" (db "" 3) md url := by
  unfold search_metadata
  simp only [hdb, hmd, hurl]
  rw [if_neg (by
    intro hc
    rcases hc with hc | hc
    · exact hmd0 hc
    · exact hurl0 hc)]
  exact ⟨_, rfl, rfl, rfl⟩

theorem c9_empty_query_success_witness :
    ∃ r, search_metadata "" gReadyClose = .ok (r, gReadyClose) ∧
      r.status = "success" ∧
      r.results = search_and_format_results ""
        ((fun _ _ => [("T", mkRat 1 10)]) "" 3) [("T", cUsers)] "u" :=
  c9_empty_query_success gReadyClose (fun _ _ => [("T", mkRat 1 10)])
    [("T", cUsers)] "u" rfl rfl (by decide) rfl (by decide)

/-- C10: a `Search` call never mutates the registered-source state: the
globals coming out of a successful call are the globals that went in,
field by field (active index, snapshot, fingerprints, paths, base
URL). -/
theorem c10_search_frame (q : String) (g : Globals) (r : SearchResponse)
    (g2 : Globals) (h : search_metadata q g = .ok (r, g2)) :
    g2.vector_db = g.vector_db ∧ g2.metadata_dict = g.metadata_dict ∧
    g2.metadata_mtime = g.metadata_mtime ∧
    g2.metadata_mtime_map = g.metadata_mtime_map ∧
    g2.metadata_path = g.metadata_path ∧
    g2.faiss_index_path = g.faiss_index_path ∧
    g2.embedding_model = g.embedding_model ∧
    g2.openmetadata_base_url = g.openmetadata_base_url := by
  unfold search_metadata at h
  rcases hdb : g.vector_db with _ | db
  · rw [hdb] at h; simp at h
  rcases hmd : g.metadata_dict with _ | md
  · rw [hdb, hmd] at h; simp at h
  rcases hurl : g.openmetadata_base_url with _ | url
  · rw [hdb, hmd, hurl] at h; simp at h
  simp only [hdb, hmd, hurl] at h
  by_cases hc : md = [] ∨ url = ""
  · rw [if_pos hc] at h; simp at h
  · rw [if_neg hc] at h
    cases h
    exact ⟨hdb, hmd, rfl, rfl, rfl, rfl, rfl, hurl⟩

theorem c10_search_frame_witness :
    gReadyEmpty.vector_db = gReadyEmpty.vector_db ∧
    gReadyEmpty.metadata_dict = gReadyEmpty.metadata_dict ∧
    gReadyEmpty.metadata_mtime = gReadyEmpty.metadata_mtime ∧
    gReadyEmpty.metadata_mtime_map = gReadyEmpty.metadata_mtime_map ∧
    gReadyEmpty.metadata_path = gReadyEmpty.metadata_path ∧
    gReadyEmpty.faiss_index_path = gReadyEmpty.faiss_index_path ∧
    gReadyEmpty.embedding_model = gReadyEmpty.embedding_model ∧
    gReadyEmpty.openmetadata_base_url = gReadyEmpty.openmetadata_base_url :=
  c10_search_frame "q" gReadyEmpty respNull gReadyEmpty rfl

theorem resolveSource_same (p : String) (g : Globals) (w : World)
    (h : g.metadata_path = some p) : resolveSource p g w = (g, false) := by
  unfold resolveSource
  rw [if_neg (by simp [h])]

theorem resolveSource_changed (p : String) (g : Globals) (w : World)
    (h : ¬ g.metadata_path = some p) :
    resolveSource p g w =
      ({ g with metadata_path := some p
              , faiss_index_path := some (derive_faiss_index_path w.baseDir p)
              , metadata_mtime := lookupQ g.metadata_mtime_map p
              , vector_db := none }, true) := by
  unfold resolveSource
  rw [if_pos h]

theorem withIndexPath_some (p : String) (w : World) (g : Globals) (f : String)
    (h : g.faiss_index_path = some f) : withIndexPath p w g = g := by
  unfold withIndexPath
  rw [h]

theorem withIndexPath_fields (p : String) (w : World) (g : Globals) :
    (withIndexPath p w g).metadata_path = g.metadata_path ∧
    (withIndexPath p w g).metadata_mtime = g.metadata_mtime ∧
    (withIndexPath p w g).metadata_mtime_map = g.metadata_mtime_map ∧
    (withIndexPath p w g).embedding_model = g.embedding_model ∧
    ∃ f, (withIndexPath p w g).faiss_index_path = some f := by
  unfold withIndexPath
  rcases hf : g.faiss_index_path with _ | f
  · exact ⟨rfl, rfl, rfl, rfl, derive_faiss_index_path w.baseDir p, rfl⟩
  · exact ⟨rfl, rfl, rfl, rfl, f, hf⟩

/-- Any successful `refreshAfterStat` outcome keeps the path, embedding
model and index-path fields of the incoming globals, and leaves a truthy
recorded fingerprint at least the current one. -/
theorem refreshAfterStat_ok (p : String) (w : World) (g2 : Globals)
    (pc : Bool) (current : ℚ) (o : RefreshOut)
    (h : refreshAfterStat p w g2 pc current = .ok o) (hc0 : current ≠ 0) :
    o.st.metadata_path = g2.metadata_path ∧
    o.st.embedding_model = g2.embedding_model ∧
    o.st.faiss_index_path = g2.faiss_index_path ∧
    truthyQ o.st.metadata_mtime ∧ current ≤ o.st.metadata_mtime.getD 0 := by
  unfold refreshAfterStat at h
  by_cases h1 : pc = false ∧ w.indexOnDisk (g2.faiss_index_path.getD "") = true ∧
      truthyQ g2.metadata_mtime ∧ current ≤ g2.metadata_mtime.getD 0
  · rw [if_pos h1] at h
    cases h
    exact ⟨rfl, rfl, rfl, h1.2.2.1, h1.2.2.2⟩
  · rw [if_neg h1] at h
    by_cases h2 : pc = true ∧ w.indexOnDisk (g2.faiss_index_path.getD "") = true ∧
        truthyQ (lookupQ g2.metadata_mtime_map p) ∧
        current ≤ (lookupQ g2.metadata_mtime_map p).getD 0
    · rw [if_pos h2] at h
      rcases hlm : w.loadMeta p with _ | tables
      · rw [hlm] at h; cases h
      · simp only [hlm] at h
        rcases hli : w.loadIndex (g2.faiss_index_path.getD "") with _ | db
        · rw [hli] at h; cases h
        · simp only [hli] at h
          cases h
          exact ⟨rfl, rfl, rfl, h2.2.2.1, h2.2.2.2⟩
    · rw [if_neg h2, if_neg h1] at h
      rcases hlm : w.loadMeta p with _ | tables
      · rw [hlm] at h; cases h
      · simp only [hlm] at h
        cases h
        refine ⟨rfl, rfl, rfl, hc0, ?_⟩
        simp

/-- C5 (amended): two successive `EnsureFresh` calls with the same path,
an on-disk index present, and an unchanged *nonzero* file-modification
fingerprint: whatever the first successful call did, the second call
takes the fast path, returns `skipped`, leaves the globals untouched and
performs no embedding computation.  (The nonzero proviso is forced by
Python float truthiness: see the counterexample at fingerprint `0.0`.) -/
theorem c5_second_call_skips (p : String) (g : Globals) (w : World)
    (o : RefreshOut) (m : ℚ)
    (h1 : refresh_faiss_index_if_needed (some p) g w = .ok o)
    (hm : w.fileMtime p = some m) (hm0 : m ≠ 0)
    (hidx : w.indexOnDisk (o.st.faiss_index_path.getD "") = true) :
    refresh_faiss_index_if_needed (some p) o.st w = .ok ⟨"skipped", o.st, 0⟩ := by
  by_cases hemb : g.embedding_model = true
  · unfold refresh_faiss_index_if_needed at h1
    rcases hrs : resolveSource p g w with ⟨g1, pc⟩
    simp only [hemb, hrs, hm, Option.orElse] at h1
    have hg1path : g1.metadata_path = some p := by
      by_cases hpc : g.metadata_path = some p
      · rw [resolveSource_same p g w hpc] at hrs
        cases hrs
        exact hpc
      · rw [resolveSource_changed p g w hpc] at hrs
        cases hrs
        rfl
    have hg1emb : g1.embedding_model = true := by
      by_cases hpc : g.metadata_path = some p
      · rw [resolveSource_same p g w hpc] at hrs
        cases hrs
        exact hemb
      · rw [resolveSource_changed p g w hpc] at hrs
        cases hrs
        exact hemb
    obtain ⟨hwp, hwm, hwmap, hwe, f, hwf⟩ := withIndexPath_fields p w g1
    obtain ⟨hop, hoe, hof, hot, hole⟩ :=
      refreshAfterStat_ok p w (withIndexPath p w g1) pc m o h1 hm0
    have hopath : o.st.metadata_path = some p := by rw [hop, hwp, hg1path]
    have hoemb : o.st.embedding_model = true := by rw [hoe, hwe, hg1emb]
    have hofaiss : o.st.faiss_index_path = some f := by rw [hof, hwf]
    unfold refresh_faiss_index_if_needed
    simp only [hoemb, resolveSource_same p o.st w hopath, hm, Option.orElse]
    rw [withIndexPath_some p w o.st f hofaiss]
    unfold refreshAfterStat
    rw [if_pos ⟨rfl, hidx, hot, hole⟩]
  · unfold refresh_faiss_index_if_needed at h1
    simp only [Bool.not_eq_true] at hemb
    simp only [hemb, Option.orElse] at h1
    cases h1

/-- A source registered at `m.json` before any index or fingerprint
exists, with a working embedding model. -/
def gFresh : Globals := { metadata_path := some "m.json", embedding_model := true }

/-- A world whose metadata file reports the (nonzero) modification time
`5.0` and whose on-disk index directory exists. -/
def wFresh : World :=
  { baseDir := "idx"
  , fileMtime := fun _ => some 5
  , indexOnDisk := fun _ => true
  , loadMeta := fun _ => some []
  , loadIndex := fun _ => some (fun _ _ => [])
  , buildIndex := fun _ => fun _ _ => [] }

/-- The outcome of the first `EnsureFresh` call on `gFresh`/`wFresh`:
a full rebuild. -/
def oFresh : RefreshOut :=
  ⟨"updated",
   { metadata_path := some "m.json"
   , faiss_index_path := some (derive_faiss_index_path "idx" "m.json")
   , metadata_mtime := some 5
   , metadata_mtime_map := [("m.json", 5)]
   , metadata_dict := some []
   , vector_db := some (fun _ _ => [])
   , embedding_model := true }, 1⟩

theorem c5_second_call_skips_witness :
    refresh_faiss_index_if_needed (some "m.json") oFresh.st wFresh =
      .ok ⟨"skipped", oFresh.st, 0⟩ :=
  c5_second_call_skips "m.json" gFresh wFresh oFresh 5 rfl rfl (by decide) rfl

/-- The outcome of the first `EnsureFresh` call on `gZero`/`wZero`
(fingerprint `0.0`): a full rebuild. -/
def oZero : RefreshOut :=
  ⟨"updated",
   { metadata_path := some "z.json"
   , faiss_index_path := some "idx/z"
   , metadata_mtime := some 0
   , metadata_mtime_map := [("z.json", 0)]
   , metadata_dict := some []
   , vector_db := some (fun _ _ => [])
   , embedding_model := true }, 1⟩

/-- C5 counterexample: with the metadata file's fingerprint equal to
`0.0` (the Unix epoch — a falsy Python float), the second identical
`EnsureFresh` call does *not* return `skipped`: it rebuilds again and
performs another embedding computation, because `if last_mtime and ...`
treats the recorded fingerprint `0.0` as missing. -/
theorem c5_counterexample :
    refresh_faiss_index_if_needed (some "z.json") gZero wZero = .ok oZero ∧
    wZero.fileMtime "z.json" = some 0 ∧
    wZero.indexOnDisk (oZero.st.faiss_index_path.getD "") = true ∧
    refresh_faiss_index_if_needed (some "z.json") oZero.st wZero =
      .ok ⟨"updated", oZero.st, 1⟩ ∧
    ¬ ("updated" = "skipped") ∧ ¬ ((1 : Nat) = 0) :=
  ⟨rfl, rfl, rfl, rfl, by decide, by decide⟩

/-- C6 (amended): an `EnsureFresh` call for a path that differs from the
currently registered one, with an on-disk index present and a *nonzero*
recorded fingerprint at least the current one, loads the on-disk index:
it returns `loaded` with zero embedding computations, installs the
loaded index and the freshly loaded snapshot, and restores the recorded
fingerprint.  (The code reaches the load branch only when the path
changed, and only for truthy recorded fingerprints; see the
counterexample for a skipped-path-unchanged call that rebuilds
instead.) -/
theorem c6_loaded_on_changed_path (p : String) (g : Globals) (w : World)
    (c m : ℚ) (ts : List CatalogTable)
    (db : String → Nat → List (String × ℚ))
    (hemb : g.embedding_model = true)
    (hpc : ¬ g.metadata_path = some p)
    (hc : lookupQ g.metadata_mtime_map p = some c) (hc0 : c ≠ 0)
    (hm : w.fileMtime p = some m) (hmc : m ≤ c)
    (hidx : w.indexOnDisk (derive_faiss_index_path w.baseDir p) = true)
    (hlm : w.loadMeta p = some ts)
    (hli : w.loadIndex (derive_faiss_index_path w.baseDir p) = some db) :
    ∃ st, refresh_faiss_index_if_needed (some p) g w = .ok ⟨"loaded", st, 0⟩ ∧
      st.vector_db = some db ∧ st.metadata_dict = some (mkDict ts) ∧
      st.metadata_mtime = some c ∧ st.metadata_path = some p := by
  unfold refresh_faiss_index_if_needed
  simp only [hemb, resolveSource_changed p g w hpc, Option.orElse, hm]
  rw [withIndexPath_some p w _ (derive_faiss_index_path w.baseDir p) rfl]
  unfold refreshAfterStat
  rw [if_neg (by intro hcond; exact absurd hcond.1 (by decide))]
  rw [if_pos ⟨rfl, hidx, by rw [hc]; exact hc0, by rw [hc]; exact hmc⟩]
  simp only [Option.getD_some, hlm, hli]
  exact ⟨_, rfl, rfl, rfl, hc, rfl⟩

/-- A registered source at `old.json` that has previously built an index
for `new.json` with recorded fingerprint `10.0`. -/
def gSwitch : Globals :=
  { metadata_path := some "old.json"
  , faiss_index_path := some "idx/old"
  , metadata_mtime := some 5
  , metadata_mtime_map := [("new.json", 10)]
  , embedding_model := true }

/-- A world where every file reports modification time `7.0`, every
index directory exists and loads successfully. -/
def wSwitch : World :=
  { baseDir := "idx"
  , fileMtime := fun _ => some 7
  , indexOnDisk := fun _ => true
  , loadMeta := fun _ => some []
  , loadIndex := fun _ => some (fun _ _ => [])
  , buildIndex := fun _ => fun _ _ => [] }

theorem c6_loaded_on_changed_path_witness :
    ∃ st, refresh_faiss_index_if_needed (some "new.json") gSwitch wSwitch =
        .ok ⟨"loaded", st, 0⟩ ∧
      st.vector_db = some (fun _ _ => []) ∧ st.metadata_dict = some (mkDict []) ∧
      st.metadata_mtime = some 10 ∧ st.metadata_path = some "new.json" :=
  c6_loaded_on_changed_path "new.json" gSwitch wSwitch 10 7 [] (fun _ _ => [])
    rfl (by decide) rfl (by decide) rfl (by decide) rfl rfl rfl

/-- A registered source at `a.json` whose recorded map fingerprint
(`10.0`) exceeds the file's current fingerprint (`8.0`) while the
session fingerprint is stale (`5.0`). -/
def gSame : Globals :=
  { metadata_path := some "a.json"
  , faiss_index_path := some "idx/a"
  , metadata_mtime := some 5
  , metadata_mtime_map := [("a.json", 10)]
  , embedding_model := true }

/-- A world where `a.json` reports modification time `8.0` and the
on-disk index exists. -/
def wSame : World :=
  { baseDir := "idx"
  , fileMtime := fun _ => some 8
  , indexOnDisk := fun _ => true
  , loadMeta := fun _ => some []
  , loadIndex := fun _ => some (fun _ _ => [])
  , buildIndex := fun _ => fun _ _ => [] }

/-- A registered source at `old.json` whose recorded fingerprint for
`e.json` is the falsy float `0.0`. -/
def gEpochCached : Globals :=
  { metadata_path := some "old.json"
  , metadata_mtime_map := [("e.json", 0)]
  , embedding_model := true }

/-- C6 counterexample, two scenarios the claim covers but the code
rebuilds in.  First: a same-path call that does not skip (session
fingerprint `5.0` behind the file's `8.0`) with an on-disk index whose
recorded fingerprint `10.0` is `≥` the current `8.0` — the code rebuilds
(`updated`) because its load branch additionally requires the requested
path to differ from the registered one.  Second: a changed-path call
with an on-disk index recorded at fingerprint `0.0 ≥ current 0.0` — the
code rebuilds because `if cached_mtime and ...` treats the recorded
`0.0` as missing. -/
theorem c6_counterexample :
    lookupQ gSame.metadata_mtime_map "a.json" = some 10 ∧
    wSame.fileMtime "a.json" = some 8 ∧ (8 : ℚ) ≤ 10 ∧
    wSame.indexOnDisk (gSame.faiss_index_path.getD "") = true ∧
    statusOf (refresh_faiss_index_if_needed (some "a.json") gSame wSame) =
      some "updated" ∧
    ¬ statusOf (refresh_faiss_index_if_needed (some "a.json") gSame wSame) =
      some "loaded" ∧
    ¬ statusOf (refresh_faiss_index_if_needed (some "a.json") gSame wSame) =
      some "skipped" ∧
    lookupQ gEpochCached.metadata_mtime_map "e.json" = some 0 ∧
    wZero.fileMtime "e.json" = some 0 ∧ (0 : ℚ) ≤ 0 ∧
    wZero.indexOnDisk (derive_faiss_index_path "idx" "e.json") = true ∧
    ¬ gEpochCached.metadata_path = some "e.json" ∧
    statusOf (refresh_faiss_index_if_needed (some "e.json") gEpochCached wZero) =
      some "updated" ∧
    ¬ statusOf (refresh_faiss_index_if_needed (some "e.json") gEpochCached wZero) =
      some "loaded" :=
  ⟨rfl, rfl, by decide, rfl, by decide, by decide, by decide, rfl, rfl,
   by decide, rfl, by decide, by decide, by decide⟩

/-- A registered source at `old.json` with a recorded fingerprint for
`new.json`, whose on-disk index for `new.json` exists but is corrupt. -/
def gCorrupt : Globals :=
  { metadata_path := some "old.json"
  , metadata_mtime_map := [("new.json", 10)]
  , embedding_model := true }

/-- A world where the on-disk index exists but `FAISS.load_local`
raises on it (`loadIndex` returns `none`), while metadata parses fine
and a rebuild would succeed. -/
def wCorrupt : World :=
  { baseDir := "idx"
  , fileMtime := fun _ => some 7
  , indexOnDisk := fun _ => true
  , loadMeta := fun _ => some []
  , loadIndex := fun _ => none
  , buildIndex := fun _ => fun _ _ => [] }

/-- C7: against the spec's stated recovery design, an on-disk index that
exists but fails to load makes `EnsureFresh` propagate the uncaught
load exception to the caller instead of falling back to a rebuild:
the call errors and never returns `updated`. -/
theorem c7_load_failure_propagates :
    wCorrupt.indexOnDisk (derive_faiss_index_path "idx" "new.json") = true ∧
    wCorrupt.loadIndex (derive_faiss_index_path "idx" "new.json") = none ∧
    errOf (refresh_faiss_index_if_needed (some "new.json") gCorrupt wCorrupt) =
      some RefreshErr.exception ∧
    statusOf (refresh_faiss_index_if_needed (some "new.json") gCorrupt wCorrupt) =
      none :=
  ⟨rfl, rfl, by decide, by decide⟩

/-- C8 counterexample: two distinct metadata paths with equal stems are
mapped to the *same* index-storage directory, because only the path's
stem enters the derivation. -/
theorem c8_counterexample :
    derive_faiss_index_path "faiss_indices" "a/foo.json" =
      derive_faiss_index_path "faiss_indices" "b/foo.json" ∧
    ¬ ("a/foo.json" = "b/foo.json") :=
  ⟨by decide, by decide⟩

/-- C8 (amended): the index-storage directory is a deterministic pure
function of the base directory and the metadata path; two paths receive
distinct directories whenever their sanitised stems differ (but paths
sharing a sanitised stem collide, see the counterexample). -/
theorem c8_distinct_stems_distinct_dirs (base p1 p2 : String)
    (h : ¬ sanitizeStem p1 = sanitizeStem p2) :
    ¬ derive_faiss_index_path base p1 = derive_faiss_index_path base p2 := by
  intro heq
  apply h
  have hd : ((base ++ "/") ++ sanitizeStem p1).data =
      ((base ++ "/") ++ sanitizeStem p2).data := congrArg String.data heq
  simp only [String.data_append, List.append_assoc] at hd
  have hcancel := List.append_cancel_left (List.append_cancel_left hd)
  calc sanitizeStem p1 = String.mk (sanitizeStem p1).data := rfl
    _ = String.mk (sanitizeStem p2).data := by rw [hcancel]
    _ = sanitizeStem p2 := rfl

theorem c8_distinct_stems_distinct_dirs_witness :
    ¬ derive_faiss_index_path "faiss_indices" "x.json" =
      derive_faiss_index_path "faiss_indices" "y.json" :=
  c8_distinct_stems_distinct_dirs "faiss_indices" "x.json" "y.json" (by decide)
